import Mathlib

/-!
# Verification of a diagonal-Sudoku solver

Shallow embedding of `solution.py`: an 81-cell board maps each cell to a
candidate string.  The Python dictionary is keyed by the fixed cell list
`boxes` (row-major `A1..I9`, the dictionary's insertion order), so a board is
embedded positionally as a list of 81 candidate-character lists, and the
cell-name units are mirrored by index lists (`unitsIdx`).  Candidate strings
are embedded as `List Char`.
-/

set_option maxRecDepth 8000

namespace Sudoku

/-- `rows = 'ABCDEFGHI'` from the source. -/
def rows : String := "ABCDEFGHI"

/-- `cols = '123456789'` from the source. -/
def cols : String := "123456789"

/-- `cross(A, B)`: cross product of the characters of `A` and `B`,
each pair concatenated to a two-character cell name. -/
def cross (A B : String) : List String :=
  A.toList.flatMap (fun a => B.toList.map (fun b => String.mk [a, b]))

/-- `boxes = cross(rows, cols)`: the 81 cell names in row-major order;
this is also the key (insertion) order of every board dictionary. -/
def boxes : List String := cross rows cols

/-- `row_units = [cross(row, cols) for row in rows]`. -/
def row_units : List (List String) :=
  rows.toList.map (fun r => cross (String.mk [r]) cols)

/-- `col_units = [cross(rows, col) for col in cols]`. -/
def col_units : List (List String) :=
  cols.toList.map (fun c => cross rows (String.mk [c]))

/-- `square_units = [cross(xs, ys) for xs in ['ABC','DEF','GHI'] for ys in ['123','456','789']]`. -/
def square_units : List (List String) :=
  ["ABC", "DEF", "GHI"].flatMap
    (fun xs => ["123", "456", "789"].map (fun ys => cross xs ys))

/-- `diag_tuples = [(row+col, row+str(abs(c-9))) for r,row in enumerate(rows)
for c,col in enumerate(cols) if r == c]`.  For the index `c ∈ 0..8` of the
kept pairs, `str(abs(c-9)) = str(9-c)` is the character of code `57 - c`
(`'9'` has code 57). -/
def diag_tuples : List (String × String) :=
  (rows.toList.zip cols.toList).enum.map
    (fun p => (String.mk [p.2.1, p.2.2], String.mk [p.2.1, Char.ofNat (57 - p.1)]))

/-- `diag_units = [list of first components, list of second components]`. -/
def diag_units : List (List String) :=
  [diag_tuples.map Prod.fst, diag_tuples.map Prod.snd]

/-- `units = row_units + col_units + square_units + diag_units` (29 units). -/
def units : List (List String) := row_units ++ col_units ++ square_units ++ diag_units

/-- `boxdict[box] = [unit for unit in units if box in unit]`. -/
def boxdict (box : String) : List (List String) :=
  units.filter (fun u => decide (box ∈ u))

/-- `peers[box] = set(chain(*boxdict[box])) - set([box])`. -/
def peers (box : String) : Finset String :=
  (boxdict box).flatten.toFinset.erase box

/-- The digit characters `'123456789'` (the Python loops `for digit in '123456789'`). -/
def digits : List Char := cols.toList

/-- Position of a cell name in the fixed key order `boxes`. -/
def boxIdx (s : String) : Nat := boxes.findIdx (fun t => t == s)

/-- The 29 units as lists of board positions (the positional mirror of `units`). -/
def unitsIdx : List (List Nat) := units.map (fun u => u.map boxIdx)

/-- Deduplication keeping the first occurrence of each element — the key
order of a Python dict built by repeated insertion. -/
def firstDedupAux {α : Type} [DecidableEq α] (seen : List α) : List α → List α
  | [] => []
  | x :: xs => if x ∈ seen then firstDedupAux seen xs else x :: firstDedupAux (x :: seen) xs

/-- Deduplication keeping first occurrences. -/
def firstDedup {α : Type} [DecidableEq α] (l : List α) : List α := firstDedupAux [] l

/-- The peer positions of the cell at position `i`.  The Python `peers[box]`
is a `set`, whose iteration order is unspecified; `eliminate`, the only use,
removes one digit from each of the distinct peer cells, so its result does
not depend on that order, and we fix the first-occurrence order of the
flattened unit lists. -/
def peersIdx (i : Nat) : List Nat :=
  (firstDedup ((boxdict (boxes.getD i "")).flatten.map boxIdx)).filter
    (fun j => decide (j ≠ i))

/-- A sudoku dictionary: one candidate string per cell of `boxes`,
stored positionally in the fixed key order. -/
def Board : Type := { l : List (List Char) // l.length = 81 }

instance : DecidableEq Board := fun a b =>
  match decEq a.val b.val with
  | isTrue h => isTrue (Subtype.ext h)
  | isFalse h => isFalse (fun hab => h (congrArg Subtype.val hab))

/-- `values[box]` for the cell at position `i`. -/
def getCell (b : Board) (i : Nat) : List Char := b.val.getD i []

/-- `values[box] = v` for the cell at position `i`. -/
def setCell (b : Board) (i : Nat) (v : List Char) : Board :=
  ⟨b.val.set i v, by rw [List.length_set]; exact b.property⟩

/-- `len(''.join(values.values()))`: the candidate characters remaining on the
whole board, summed cell by cell. -/
def totalLen (b : Board) : Nat :=
  ((List.range 81).map (fun i => (getCell b i).length)).sum

/-- One left-to-right pass of Python's `s.replace(sub, '')` (non-overlapping
occurrence removal), with fuel; fuel `≥ s.length` never runs out because each
step consumes at least one character. -/
def srdAux (sub : List Char) : Nat → List Char → List Char
  | 0, v => v
  | _ + 1, [] => []
  | fuel + 1, c :: rest =>
    if (c :: rest).take sub.length = sub then srdAux sub fuel ((c :: rest).drop sub.length)
    else c :: srdAux sub fuel rest

/-- Python `s.replace(sub, '')`; `s.replace('', '') = s`.  In `eliminate` the
pattern is always the value of a box that was solved when the pass started,
hence a single character (or `''` if a previous removal emptied it). -/
def strReplaceDel (sub v : List Char) : List Char :=
  if sub = [] then v else srdAux sub v.length v

/-- `eliminate`: for every box solved at the start of the pass, remove its
(current) value from each of its peers. -/
def eliminate (b : Board) : Board :=
  ((List.range 81).filter (fun i => decide ((getCell b i).length = 1))).foldl
    (fun acc i =>
      let digit := getCell acc i
      (peersIdx i).foldl
        (fun a2 j => setCell a2 j (strReplaceDel digit (getCell a2 j))) acc)
    b

/-- One `only_choice` assignment: if `digit` currently fits in exactly one box
of the unit, that box is set to the single digit. -/
def oc_step (b : Board) (u : List Nat) (d : Char) : Board :=
  let dplaces := u.filter (fun i => decide (d ∈ getCell b i))
  if dplaces.length = 1 then setCell b (dplaces.headD 0) [d] else b

/-- `only_choice`: for every unit and digit, if only one box of the unit can
hold the digit, assign it there. -/
def only_choice (b : Board) : Board :=
  unitsIdx.foldl (fun acc u => digits.foldl (fun a2 d => oc_step a2 u d) acc) b

/-- The removal loop of `naked_twins` for one fired pair `p = a + b`: every
box of the unit whose current value differs from the two-character string `p`
has the characters of `p` deleted — `re.sub(a+'|'+b, '', s)` with single
characters `a`, `b` deletes every occurrence of `a` or `b`.  (`naked_twins`
scans each unit for two-character values — Python's `defaultdict`, keys in
first-occurrence order — and fires every value seen exactly twice.) -/
def nt_removePair (u : List Nat) (p : List Char) (acc : Board) : Board :=
  match p with
  | a :: c :: _ =>
    u.foldl
      (fun a2 i =>
        if getCell a2 i = p then a2
        else setCell a2 i ((getCell a2 i).filter (fun ch => decide (ch ≠ a ∧ ch ≠ c))))
      acc
  | _ => acc

/-- The per-unit body of `naked_twins` (see `nt_removePair` for the removal
loop of one counted pair). -/
def nt_unit (b : Board) (u : List Nat) : Board :=
  let pairs := (u.map (getCell b)).filter (fun v => decide (v.length = 2))
  (firstDedup pairs).foldl
    (fun acc p => if pairs.count p = 2 then nt_removePair u p acc else acc) b

/-- `naked_twins`: the per-unit elimination applied to the 29 units in order. -/
def naked_twins (b : Board) : Board := unitsIdx.foldl nt_unit b

/-- `reduce_puzzle`: one pass of eliminate, then only_choice, then naked_twins. -/
def reduce_puzzle (b : Board) : Board := naked_twins (only_choice (eliminate b))

/-- `is_same`: the source compares `hash(tuple(before.values()))` with
`hash(tuple(after.values()))`.  Modelled from the spec: Python's string
hashing is per-process randomized and implementation-defined, so it has no
shallow embedding; the spec (§9) states that a direct structural comparison
of the two snapshots is equivalent in effect, and `is_same` is embedded as
structural equality of the 81 candidate strings. -/
def is_same (before after : Board) : Bool := decide (before.val = after.val)

/-- `is_searchable`: the concatenated candidate length is strictly above 81. -/
def is_searchable (b : Board) : Bool := decide (81 < totalLen b)

/-- Insertion of a character into a sorted list (for Python's `sorted`). -/
def insChar (c : Char) : List Char → List Char
  | [] => [c]
  | x :: xs => if c ≤ x then c :: x :: xs else x :: insChar c xs

/-- Python's `sorted` on characters (insertion sort, ascending code points). -/
def sortChars : List Char → List Char
  | [] => []
  | x :: xs => insChar x (sortChars xs)

/-- `is_solved`: in every unit the sorted concatenation of the nine candidate
strings must be exactly `'123456789'`. -/
def is_solved (b : Board) : Bool :=
  unitsIdx.all (fun u => decide (sortChars ((u.map (getCell b)).flatten) = digits))

/-- The key of Python's `min`: `lambda box: 10 if len(values[box]) == 1 else
len(values[box])`. -/
def fsbKey (b : Board) (i : Nat) : Nat :=
  if (getCell b i).length = 1 then 10 else (getCell b i).length

/-- `find_smallest_box`: `min` over the 81 boxes in key order of `fsbKey`;
Python's `min` keeps the first of several minima. -/
def find_smallest_box (b : Board) : Nat :=
  (List.range 81).foldl (fun best i => if fsbKey b i < fsbKey b best then i else best) 0

/-- The fixpoint loop at the head of `search`, with fuel: keep replacing the
board by `reduce_puzzle` of it until a pass changes nothing.  Fuel above
`totalLen` always suffices because a changed pass strictly shrinks the board
(proved below). -/
def reduceLoopF : Nat → Board → Board
  | 0, b => b
  | fuel + 1, b =>
    let reduced := reduce_puzzle b
    if is_same b reduced then b else reduceLoopF fuel reduced

/-- The fixpoint loop of `search` (fuel instantiated so it never runs out). -/
def reduceLoop (b : Board) : Board := reduceLoopF (totalLen b + 1) b

/-- `search`, with fuel for the depth-first recursion: reduce to a fixpoint;
if solved return the board; if not searchable fail; otherwise guess each
candidate of the smallest box in turn (`List.findSome?` returns the first
success, like the `if result: return result` loop), falling through to the
failure value.  `False` and `None` are both embedded as `none`.  Fuel above
`totalLen` suffices: every recursive call strictly shrinks the board. -/
def searchF : Nat → Board → Option Board
  | 0, _ => none
  | fuel + 1, b =>
    let values := reduceLoop b
    if is_solved values then some values
    else if is_searchable values then
      let box := find_smallest_box values
      (getCell values box).findSome? (fun guess => searchF fuel (setCell values box [guess]))
    else none

/-- `search` (fuel instantiated so it never runs out, as proved below). -/
def search (b : Board) : Option Board := searchF (totalLen b + 1) b

/-- `grid_values`: `'.'` becomes the full candidate string `cols`,
anything else the one-character string, zipped against `boxes`. -/
def grid_values (grid : List Char) (h : grid.length = 81) : Board :=
  ⟨grid.map (fun ch => if ch = '.' then cols.toList else [ch]),
   by rw [List.length_map]; exact h⟩

/-- `solve`: parse the 81-character grid, then search. -/
def solve (grid : List Char) (h : grid.length = 81) : Option Board :=
  search (grid_values grid h)

/-! ## Elementary facts about `getD`/`set` and boards -/

theorem getD_set_self : ∀ (l : List (List Char)) (i : Nat) (v : List Char),
    i < l.length → (l.set i v).getD i [] = v
  | _ :: _, 0, _, _ => rfl
  | _ :: xs, i + 1, v, h =>
    getD_set_self xs i v (Nat.lt_of_succ_lt_succ h)

theorem getD_set_ne : ∀ (l : List (List Char)) (i j : Nat) (v : List Char),
    i ≠ j → (l.set i v).getD j [] = l.getD j []
  | [], _, _, _, _ => rfl
  | _ :: _, 0, 0, _, h => absurd rfl h
  | _ :: _, 0, _ + 1, _, _ => rfl
  | _ :: _, _ + 1, 0, _, _ => rfl
  | _ :: xs, i + 1, j + 1, v, h =>
    getD_set_ne xs i j v (fun hij => h (congrArg Nat.succ hij))

theorem getD_eq_getElem : ∀ (l : List (List Char)) (i : Nat) (h : i < l.length),
    l.getD i [] = l[i]
  | _ :: _, 0, _ => rfl
  | _ :: xs, i + 1, h => getD_eq_getElem xs i (Nat.lt_of_succ_lt_succ h)

theorem getCell_setCell_self (b : Board) (i : Nat) (v : List Char) (h : i < 81) :
    getCell (setCell b i v) i = v :=
  getD_set_self b.val i v (by rw [b.property]; exact h)

theorem getCell_setCell_ne (b : Board) (i j : Nat) (v : List Char) (h : i ≠ j) :
    getCell (setCell b i v) j = getCell b j :=
  getD_set_ne b.val i j v h

theorem board_ext {x y : Board} (h : ∀ i, i < 81 → getCell x i = getCell y i) : x = y := by
  apply Subtype.ext
  apply List.ext_getElem (by rw [x.property, y.property])
  intro n h1 h2
  have hn : n < 81 := by rw [← x.property]; exact h1
  calc x.val[n] = x.val.getD n [] := (getD_eq_getElem x.val n h1).symm
    _ = y.val.getD n [] := h n hn
    _ = y.val[n] := getD_eq_getElem y.val n h2

theorem setCell_self (b : Board) (i : Nat) : setCell b i (getCell b i) = b := by
  by_cases h : i < 81
  · apply board_ext
    intro j hj
    by_cases hij : i = j
    · subst hij; exact getCell_setCell_self b i _ h
    · exact getCell_setCell_ne b i j _ hij
  · exact Subtype.ext (List.set_eq_of_length_le (by rw [b.property]; omega))

/-! ## Pointwise shrinking

Every propagation rule only deletes characters from candidate strings; this
is captured by a pointwise-sublist order on boards. -/

/-- `PSub x y`: each cell of `x` is a sublist (order-preserving selection) of
the same cell of `y`. -/
def PSub (x y : Board) : Prop := ∀ i, List.Sublist (getCell x i) (getCell y i)

theorem PSub.refl (b : Board) : PSub b b := fun _ => List.Sublist.refl _

theorem PSub.trans {x y z : Board} (h1 : PSub x y) (h2 : PSub y z) : PSub x z :=
  fun i => (h1 i).trans (h2 i)

theorem PSub.antisymm {x y : Board} (h1 : PSub x y) (h2 : PSub y x) : x = y :=
  board_ext (fun i _ => (h1 i).antisymm (h2 i))

theorem setCell_psub {b : Board} {i : Nat} {v : List Char}
    (h : List.Sublist v (getCell b i)) : PSub (setCell b i v) b := by
  intro j
  by_cases hij : i = j
  · subst hij
    by_cases hi : i < 81
    · rw [getCell_setCell_self b i v hi]; exact h
    · rw [show setCell b i v = b from
        Subtype.ext (List.set_eq_of_length_le (by rw [b.property]; omega))]
  · rw [getCell_setCell_ne b i j v hij]

theorem foldl_psub {α : Type} {f : Board → α → Board} {l : List α} {b : Board}
    (hf : ∀ a x, PSub (f a x) a) : PSub (l.foldl f b) b := by
  induction l generalizing b with
  | nil => exact PSub.refl b
  | cons x xs ih => exact (ih (b := f b x)).trans (hf b x)

theorem foldl_id {α : Type} {f : Board → α → Board} {l : List α} {b : Board}
    (h : ∀ x ∈ l, f b x = b) : l.foldl f b = b := by
  induction l with
  | nil => rfl
  | cons x xs ih =>
    rw [List.foldl_cons, h x (List.mem_cons_self x xs)]
    exact ih (fun y hy => h y (List.mem_cons_of_mem x hy))

theorem foldl_fix_steps {α : Type} {f : Board → α → Board} {l : List α} {b : Board}
    (hf : ∀ a x, PSub (f a x) a) (h : l.foldl f b = b) : ∀ x ∈ l, f b x = b := by
  induction l generalizing b with
  | nil => intro x hx; cases hx
  | cons x xs ih =>
    intro y hy
    rw [List.foldl_cons] at h
    have h1 : PSub (List.foldl f (f b x) xs) (f b x) := foldl_psub hf
    rw [h] at h1
    have hstep : f b x = b := (hf b x).antisymm h1
    rcases List.mem_cons.1 hy with rfl | hy'
    · exact hstep
    · exact ih (by rwa [hstep] at h) y hy'

/-- `srdAux` only deletes characters. -/
theorem srdAux_sublist (sub : List Char) : ∀ (fuel : Nat) (v : List Char),
    List.Sublist (srdAux sub fuel v) v
  | 0, v => by rw [srdAux]
  | _ + 1, [] => by rw [srdAux]
  | fuel + 1, c :: rest => by
    rw [srdAux]
    split
    · exact (srdAux_sublist sub fuel _).trans (List.drop_sublist _ _)
    · exact (srdAux_sublist sub fuel rest).cons₂ c

theorem strReplaceDel_sublist (sub v : List Char) : List.Sublist (strReplaceDel sub v) v := by
  rw [strReplaceDel]
  split
  · exact List.Sublist.refl v
  · exact srdAux_sublist sub v.length v

/-- `s.replace(c, '')` for a single character not occurring in `s` is the identity. -/
theorem strReplaceDel_single_not_mem {ch : Char} {v : List Char} (h : ch ∉ v) :
    strReplaceDel [ch] v = v := by
  rw [strReplaceDel]
  simp only [reduceCtorEq, if_false]
  suffices haux : ∀ fuel w, ch ∉ w → srdAux [ch] fuel w = w from haux v.length v h
  intro fuel
  induction fuel with
  | zero => intro w _; rw [srdAux]
  | succ n ih =>
    intro w hw
    match w with
    | [] => rw [srdAux]
    | c :: rest =>
      rw [srdAux]
      have hc : c ≠ ch := fun hc => hw (hc ▸ List.mem_cons_self c rest)
      rw [if_neg (by simp [hc])]
      rw [ih rest (fun hr => hw (List.mem_cons_of_mem c hr))]

theorem eliminate_psub (b : Board) : PSub (eliminate b) b := by
  apply foldl_psub
  intro a i
  apply foldl_psub
  intro a2 j
  exact setCell_psub (strReplaceDel_sublist _ _)

theorem oc_step_psub (b : Board) (u : List Nat) (d : Char) : PSub (oc_step b u d) b := by
  rw [oc_step]
  split
  · next hlen =>
    apply setCell_psub
    rw [List.singleton_sublist]
    obtain ⟨j, hj⟩ := List.length_eq_one.1 hlen
    have hmem : j ∈ u.filter (fun i => decide (d ∈ getCell b i)) := by
      rw [hj]; exact List.mem_singleton_self j
    have hdj : d ∈ getCell b j := of_decide_eq_true (List.mem_filter.1 hmem).2
    rw [hj]
    exact hdj
  · exact PSub.refl b

theorem only_choice_psub (b : Board) : PSub (only_choice b) b := by
  apply foldl_psub
  intro a u
  apply foldl_psub
  intro a2 d
  exact oc_step_psub a2 u d

theorem nt_removePair_psub (u : List Nat) (p : List Char) (acc : Board) :
    PSub (nt_removePair u p acc) acc := by
  match p with
  | [] => exact PSub.refl acc
  | [a] => exact PSub.refl acc
  | a :: c :: rest =>
    show PSub (u.foldl
      (fun a2 i =>
        if getCell a2 i = (a :: c :: rest) then a2
        else setCell a2 i ((getCell a2 i).filter (fun ch => decide (ch ≠ a ∧ ch ≠ c))))
      acc) acc
    apply foldl_psub
    intro a2 i
    split
    · exact PSub.refl a2
    · exact setCell_psub (List.filter_sublist _)

theorem nt_unit_psub (b : Board) (u : List Nat) : PSub (nt_unit b u) b := by
  apply foldl_psub
  intro a p
  split
  · exact nt_removePair_psub u p a
  · exact PSub.refl a

theorem naked_twins_psub (b : Board) : PSub (naked_twins b) b :=
  foldl_psub nt_unit_psub

theorem reduce_puzzle_psub (b : Board) : PSub (reduce_puzzle b) b :=
  ((naked_twins_psub _).trans (only_choice_psub _)).trans (eliminate_psub b)

/-! ## The total candidate count -/

theorem psub_totalLen_le {x y : Board} (h : PSub x y) : totalLen x ≤ totalLen y :=
  List.sum_le_sum (fun i _ => (h i).length_le)

theorem psub_totalLen_lt {x y : Board} (h : PSub x y) (hne : x ≠ y) :
    totalLen x < totalLen y := by
  have hdiff : ∃ i ∈ List.range 81, getCell x i ≠ getCell y i := by
    by_contra hall
    push_neg at hall
    exact hne (board_ext (fun i hi => hall i (List.mem_range.2 hi)))
  obtain ⟨i, hi, hne2⟩ := hdiff
  apply List.sum_lt_sum (fun j => (getCell x j).length) (fun j => (getCell y j).length)
    (fun j _ => (h j).length_le)
  refine ⟨i, hi, ?_⟩
  have hle := (h i).length_le
  rcases Nat.lt_or_ge (getCell x i).length (getCell y i).length with hlt | hge
  · exact hlt
  · exact absurd ((h i).eq_of_length (Nat.le_antisymm hle hge)) hne2

theorem totalLen_setCell_lt {b : Board} {i : Nat} {v : List Char} (hi : i < 81)
    (hv : v.length < (getCell b i).length) : totalLen (setCell b i v) < totalLen b := by
  apply List.sum_lt_sum (fun j => (getCell (setCell b i v) j).length)
    (fun j => (getCell b j).length)
  · intro j _
    by_cases hij : i = j
    · subst hij; rw [getCell_setCell_self b i v hi]; exact Nat.le_of_lt hv
    · rw [getCell_setCell_ne b i j v hij]
  · exact ⟨i, List.mem_range.2 hi, by rw [getCell_setCell_self b i v hi]; exact hv⟩

/-! ## The propagation loop reaches a structural fixpoint -/

theorem is_same_iff {x y : Board} : is_same x y = true ↔ x = y := by
  rw [is_same, decide_eq_true_iff]
  exact ⟨fun h => Subtype.ext h, fun h => congrArg Subtype.val h⟩

theorem reduceLoopF_psub : ∀ (fuel : Nat) (b : Board), PSub (reduceLoopF fuel b) b
  | 0, b => PSub.refl b
  | fuel + 1, b => by
    rw [reduceLoopF]
    split
    · exact PSub.refl b
    · exact (reduceLoopF_psub fuel (reduce_puzzle b)).trans (reduce_puzzle_psub b)

theorem reduceLoop_psub (b : Board) : PSub (reduceLoop b) b := reduceLoopF_psub _ b

theorem reduceLoopF_fix : ∀ (fuel : Nat) (b : Board), totalLen b < fuel →
    reduce_puzzle (reduceLoopF fuel b) = reduceLoopF fuel b := by
  intro fuel
  induction fuel with
  | zero => intro b h; cases h
  | succ n ih =>
    intro b h
    rw [reduceLoopF]
    split
    · next hsame => exact (is_same_iff.1 hsame).symm
    · next hsame =>
      apply ih
      have hne : reduce_puzzle b ≠ b := by
        intro he
        exact hsame (is_same_iff.2 he.symm)
      have := psub_totalLen_lt (reduce_puzzle_psub b) hne
      omega

theorem reduceLoop_fix (b : Board) : reduce_puzzle (reduceLoop b) = reduceLoop b :=
  reduceLoopF_fix _ b (Nat.lt_succ_self _)

theorem reduceLoopF_eq_self : ∀ (fuel : Nat) {b : Board}, reduce_puzzle b = b →
    reduceLoopF fuel b = b
  | 0, _, _ => rfl
  | fuel + 1, b, h => by
    rw [reduceLoopF]
    rw [if_pos (is_same_iff.2 h.symm)]

theorem reduceLoop_eq_self {b : Board} (h : reduce_puzzle b = b) : reduceLoop b = b :=
  reduceLoopF_eq_self _ h

/-! ## Checked facts about the fixed geometry -/

theorem units_length9 : ∀ u ∈ unitsIdx, u.length = 9 := by decide

theorem units_nodup : ∀ u ∈ unitsIdx, u.Nodup := by decide

theorem units_lt81 : ∀ u ∈ unitsIdx, ∀ i ∈ u, i < 81 := by decide

theorem units_cover : ∀ i ∈ List.range 81, ∃ u ∈ unitsIdx, i ∈ u := by decide

theorem digits_nodup : digits.Nodup := by decide

theorem units_count : units.length = 29 := by decide

/-! ## Boards a rule leaves unchanged

Kernel evaluation of a full rule pass nests one closure per dictionary
update, so concrete rule applications are established through these lemmas,
whose hypotheses only inspect the input board. -/

theorem eliminate_fixed {b : Board}
    (h : ∀ i ∈ List.range 81, (getCell b i).length = 1 →
      ∀ j ∈ peersIdx i, ∀ ch ∈ getCell b i, ch ∉ getCell b j) :
    eliminate b = b := by
  apply foldl_id
  intro i hi
  have hi1 : i ∈ List.range 81 := (List.mem_filter.1 hi).1
  have hlen : (getCell b i).length = 1 := of_decide_eq_true (List.mem_filter.1 hi).2
  obtain ⟨ch, hch⟩ := List.length_eq_one.1 hlen
  show (peersIdx i).foldl
    (fun a2 j => setCell a2 j (strReplaceDel (getCell b i) (getCell a2 j))) b = b
  apply foldl_id
  intro j hj
  have hnotin : ch ∉ getCell b j := h i hi1 hlen j hj ch (by rw [hch]; exact List.mem_singleton_self ch)
  rw [hch, strReplaceDel_single_not_mem hnotin, setCell_self]

theorem only_choice_fixed {b : Board}
    (h : ∀ u ∈ unitsIdx, ∀ d ∈ digits,
      (u.filter (fun i => decide (d ∈ getCell b i))).length = 1 →
      getCell b ((u.filter (fun i => decide (d ∈ getCell b i))).headD 0) = [d]) :
    only_choice b = b := by
  apply foldl_id
  intro u hu
  apply foldl_id
  intro d hd
  rw [oc_step]
  split
  · next hlen =>
    rw [show ([d] : List Char) =
        getCell b ((u.filter (fun i => decide (d ∈ getCell b i))).headD 0) from
      (h u hu d hd hlen).symm]
    exact setCell_self b _
  · rfl

theorem nt_unit_fixed {b : Board} {u : List Nat}
    (h : (u.map (getCell b)).filter (fun v => decide (v.length = 2)) = []) :
    nt_unit b u = b := by
  rw [nt_unit]
  simp only [h]
  rfl

theorem naked_twins_fixed {b : Board}
    (h : ∀ u ∈ unitsIdx, (u.map (getCell b)).filter (fun v => decide (v.length = 2)) = []) :
    naked_twins b = b :=
  foldl_id (fun u hu => nt_unit_fixed (h u hu))

theorem reduce_puzzle_fixed {b : Board} (he : eliminate b = b)
    (ho : only_choice b = b) (hn : naked_twins b = b) : reduce_puzzle b = b := by
  rw [reduce_puzzle, he, ho, hn]

/-! ## Python's `sorted` -/

theorem insChar_perm (c : Char) : ∀ l : List Char, List.Perm (insChar c l) (c :: l)
  | [] => List.Perm.refl _
  | x :: xs => by
    rw [insChar]
    split
    · exact List.Perm.refl _
    · exact ((insChar_perm c xs).cons x).trans (List.Perm.swap c x xs)

theorem sortChars_perm : ∀ l : List Char, List.Perm (sortChars l) l
  | [] => List.Perm.refl _
  | x :: xs => (insChar_perm x (sortChars xs)).trans ((sortChars_perm xs).cons x)

theorem is_solved_iff {b : Board} : is_solved b = true ↔
    ∀ u ∈ unitsIdx, sortChars ((u.map (getCell b)).flatten) = digits := by
  rw [is_solved, List.all_eq_true]
  constructor
  · intro h u hu; exact of_decide_eq_true (h u hu)
  · intro h u hu; exact decide_eq_true (h u hu)

/-! ## The argmin computed by `find_smallest_box` -/

theorem fold_min_spec (g : Nat → Nat) :
    ∀ (l : List Nat) (best : Nat), l.Sorted (· < ·) → (∀ x ∈ l, best ≤ x) →
    (l.foldl (fun bst i => if g i < g bst then i else bst) best = best ∨
      l.foldl (fun bst i => if g i < g bst then i else bst) best ∈ l) ∧
    g (l.foldl (fun bst i => if g i < g bst then i else bst) best) ≤ g best ∧
    (∀ x ∈ l, g (l.foldl (fun bst i => if g i < g bst then i else bst) best) ≤ g x) ∧
    (g (l.foldl (fun bst i => if g i < g bst then i else bst) best) = g best →
      l.foldl (fun bst i => if g i < g bst then i else bst) best = best) ∧
    (∀ x ∈ l, g (l.foldl (fun bst i => if g i < g bst then i else bst) best) = g x →
      l.foldl (fun bst i => if g i < g bst then i else bst) best ≤ x) := by
  intro l
  induction l with
  | nil =>
    intro best _ _
    exact ⟨Or.inl rfl, Nat.le_refl _, fun x hx => absurd hx (List.not_mem_nil x),
      fun _ => rfl, fun x hx => absurd hx (List.not_mem_nil x)⟩
  | cons i l' ih =>
    intro best hsort hle
    have hsort' : l'.Sorted (· < ·) := (List.sorted_cons.1 hsort).2
    have hil' : ∀ x ∈ l', i < x := (List.sorted_cons.1 hsort).1
    rw [List.foldl_cons]
    by_cases hgi : g i < g best
    · rw [if_pos hgi]
      obtain ⟨hres, hgb, hall, htieb, htie⟩ :=
        ih i hsort' (fun x hx => Nat.le_of_lt (hil' x hx))
      refine ⟨?_, ?_, ?_, ?_, ?_⟩
      · rcases hres with h | h
        · exact Or.inr (by rw [h]; exact List.mem_cons_self i l')
        · exact Or.inr (List.mem_cons_of_mem i h)
      · exact Nat.le_of_lt (Nat.lt_of_le_of_lt hgb hgi)
      · intro x hx
        rcases List.mem_cons.1 hx with rfl | hx'
        · exact hgb
        · exact hall x hx'
      · intro heq
        exact absurd (heq ▸ Nat.lt_of_le_of_lt hgb hgi) (Nat.lt_irrefl _)
      · intro x hx heq
        rcases List.mem_cons.1 hx with rfl | hx'
        · rw [htieb (Nat.le_antisymm hgb (heq ▸ Nat.le_refl _))]
        · exact htie x hx' heq
    · rw [if_neg hgi]
      have hbi : g best ≤ g i := Nat.le_of_not_lt hgi
      obtain ⟨hres, hgb, hall, htieb, htie⟩ :=
        ih best hsort' (fun x hx => hle x (List.mem_cons_of_mem i hx))
      refine ⟨?_, hgb, ?_, htieb, ?_⟩
      · rcases hres with h | h
        · exact Or.inl h
        · exact Or.inr (List.mem_cons_of_mem i h)
      · intro x hx
        rcases List.mem_cons.1 hx with rfl | hx'
        · exact Nat.le_trans hgb hbi
        · exact hall x hx'
      · intro x hx heq
        rcases List.mem_cons.1 hx with rfl | hx'
        · have : g (List.foldl (fun bst i => if g i < g bst then i else bst) best l') =
              g best := Nat.le_antisymm hgb (heq ▸ hbi)
          rw [htieb this]
          exact hle x (List.mem_cons_self x l')
        · exact htie x hx' heq

theorem fsb_spec (b : Board) :
    find_smallest_box b < 81 ∧
    (∀ j ∈ List.range 81, fsbKey b (find_smallest_box b) ≤ fsbKey b j) ∧
    (∀ j ∈ List.range 81, fsbKey b (find_smallest_box b) = fsbKey b j →
      find_smallest_box b ≤ j) := by
  obtain ⟨hres, _, hall, _, htie⟩ :=
    fold_min_spec (fsbKey b) (List.range 81) 0 (List.sorted_lt_range 81)
      (fun x _ => Nat.zero_le x)
  refine ⟨?_, hall, htie⟩
  rcases hres with h | h
  · rw [show find_smallest_box b =
      (List.range 81).foldl (fun bst i => if fsbKey b i < fsbKey b bst then i else bst) 0
      from rfl, h]
    omega
  · exact List.mem_range.1 h

/-- If the board is searchable then some box holds at least two candidates. -/
theorem searchable_two {b : Board} (h : is_searchable b = true) :
    ∃ i, i < 81 ∧ 2 ≤ (getCell b i).length := by
  by_contra hall
  push_neg at hall
  have h81 : 81 < totalLen b := of_decide_eq_true h
  have hle : totalLen b ≤ 81 := by
    have := List.sum_le_card_nsmul
      ((List.range 81).map (fun i => (getCell b i).length)) 1 ?_
    · simpa using this
    · intro x hx
      obtain ⟨i, hi, hxi⟩ := List.mem_map.1 hx
      have := hall i (List.mem_range.1 hi)
      omega
  omega

/-- When some box of a searchable board has at most nine candidates and at
least two, the minimum key is below ten and the chosen box is unsolved. -/
theorem fsb_not_solved {b : Board} {i : Nat} (hi : i < 81)
    (h2 : 2 ≤ (getCell b i).length) (h9 : (getCell b i).length ≤ 9) :
    (getCell b (find_smallest_box b)).length ≠ 1 := by
  obtain ⟨_, hall, _⟩ := fsb_spec b
  have hki : fsbKey b i ≤ 9 := by
    rw [fsbKey, if_neg (by omega)]; exact h9
  have := hall i (List.mem_range.2 hi)
  intro h1
  rw [fsbKey, if_pos h1] at this
  omega

/-! ## Fuel adequacy for `search` -/

theorem findSome?_ext {α β : Type} {f g : α → Option β} :
    ∀ {l : List α}, (∀ a ∈ l, f a = g a) → l.findSome? f = l.findSome? g
  | [], _ => rfl
  | a :: l, h => by
    rw [List.findSome?_cons, List.findSome?_cons, h a (List.mem_cons_self a l)]
    split
    · rfl
    · exact findSome?_ext (fun x hx => h x (List.mem_cons_of_mem a hx))

theorem findSome?_eq_some_ex {α β : Type} {f : α → Option β} :
    ∀ {l : List α} {b : β}, l.findSome? f = some b → ∃ a ∈ l, f a = some b
  | [], b, h => by cases h
  | a :: l, b, h => by
    rw [List.findSome?_cons] at h
    revert h
    split
    · next v heq =>
      intro h
      exact ⟨a, List.mem_cons_self a l, by rw [heq, h]⟩
    · intro h
      obtain ⟨x, hx, hfx⟩ := findSome?_eq_some_ex h
      exact ⟨x, List.mem_cons_of_mem a hx, hfx⟩

/-- A reduced board whose minimum-key box is already solved never branches
usefully: the one guess recreates the same board, and the fuel drains to the
failure value.  (On such boards — possible only when some cell holds more
than nine candidate characters — the Python original recurses without end.) -/
theorem stuck_none {v : Board} (hfix : reduce_puzzle v = v) (hsol : is_solved v = false)
    (hsea : is_searchable v = true)
    (h1 : (getCell v (find_smallest_box v)).length = 1) :
    ∀ k, searchF k v = none := by
  intro k
  induction k with
  | zero => rfl
  | succ n ih =>
    obtain ⟨g0, hg0⟩ := List.length_eq_one.1 h1
    simp only [searchF, reduceLoop_eq_self hfix, hsol, hsea, if_true, if_false,
      Bool.false_eq_true]
    rw [hg0, List.findSome?_cons]
    have harg : setCell v (find_smallest_box v) [g0] = v := by
      rw [show [g0] = getCell v (find_smallest_box v) from hg0.symm]
      exact setCell_self v _
    rw [harg, ih]
    rfl

theorem searchF_congr_aux :
    ∀ (N : Nat) (b : Board), totalLen b < N → ∀ (f1 f2 : Nat),
      totalLen b < f1 → totalLen b < f2 → searchF f1 b = searchF f2 b := by
  intro N
  induction N using Nat.strong_induction_on with
  | _ N ih =>
    intro b hbN f1 f2 h1 h2
    obtain ⟨n1, rfl⟩ : ∃ n, f1 = n + 1 := ⟨f1 - 1, by omega⟩
    obtain ⟨n2, rfl⟩ : ∃ n, f2 = n + 1 := ⟨f2 - 1, by omega⟩
    simp only [searchF]
    have hfix : reduce_puzzle (reduceLoop b) = reduceLoop b := reduceLoop_fix b
    have hvb : totalLen (reduceLoop b) ≤ totalLen b := psub_totalLen_le (reduceLoop_psub b)
    by_cases hsol : is_solved (reduceLoop b) = true
    · rw [if_pos hsol, if_pos hsol]
    · rw [if_neg hsol, if_neg hsol]
      by_cases hsea : is_searchable (reduceLoop b) = true
      · rw [if_pos hsea, if_pos hsea]
        have hbox : find_smallest_box (reduceLoop b) < 81 := (fsb_spec (reduceLoop b)).1
        rcases Nat.lt_or_ge
            (getCell (reduceLoop b) (find_smallest_box (reduceLoop b))).length 2 with
          hlt | hge
        · match h0 : getCell (reduceLoop b) (find_smallest_box (reduceLoop b)) with
          | [] => rfl
          | [g0] =>
            have hstuck := stuck_none hfix (Bool.not_eq_true _ ▸ hsol : _)
              hsea (by rw [h0]; rfl)
            rw [List.findSome?_cons, List.findSome?_cons]
            have harg : setCell (reduceLoop b) (find_smallest_box (reduceLoop b)) [g0] =
                reduceLoop b := by
              rw [show [g0] = getCell (reduceLoop b) (find_smallest_box (reduceLoop b))
                from h0.symm]
              exact setCell_self _ _
            rw [harg, hstuck n1, hstuck n2]
            rfl
          | g0 :: g1 :: gs =>
            rw [h0] at hlt
            simp only [List.length_cons] at hlt
            omega
        · apply findSome?_ext
          intro g hg
          have harg : totalLen
              (setCell (reduceLoop b) (find_smallest_box (reduceLoop b)) [g]) <
              totalLen (reduceLoop b) := by
            apply totalLen_setCell_lt hbox
            simp only [List.length_cons, List.length_nil]
            omega
          exact ih (totalLen b) hbN _ (by omega) n1 n2 (by omega) (by omega)
      · rw [if_neg hsea, if_neg hsea]

theorem searchF_congr {b : Board} {f1 f2 : Nat} (h1 : totalLen b < f1)
    (h2 : totalLen b < f2) : searchF f1 b = searchF f2 b :=
  searchF_congr_aux (totalLen b + 1) b (Nat.lt_succ_self _) f1 f2 h1 h2

theorem searchF_succ (n : Nat) (b : Board) : searchF (n + 1) b =
    (if is_solved (reduceLoop b) then some (reduceLoop b)
     else if is_searchable (reduceLoop b) then
       (getCell (reduceLoop b) (find_smallest_box (reduceLoop b))).findSome?
         (fun g => searchF n (setCell (reduceLoop b) (find_smallest_box (reduceLoop b)) [g]))
     else none) := rfl

/-- `search` on a board whose reduction is solved returns that reduction. -/
theorem search_solved_eq {b : Board} (hsol : is_solved (reduceLoop b) = true) :
    search b = some (reduceLoop b) := by
  rw [search, searchF_succ, if_pos hsol]

/-- `search` on an unsolved, unsearchable reduction returns the failure value. -/
theorem search_not_searchable {b : Board} (hsol : is_solved (reduceLoop b) = false)
    (hsea : is_searchable (reduceLoop b) = false) : search b = none := by
  rw [search, searchF_succ, if_neg (by simp [hsol]), if_neg (by simp [hsea])]

/-- `search` with an empty guess string falls through to the failure value. -/
theorem search_gs_nil {b : Board} (hsol : is_solved (reduceLoop b) = false)
    (hsea : is_searchable (reduceLoop b) = true)
    (h0 : getCell (reduceLoop b) (find_smallest_box (reduceLoop b)) = []) :
    search b = none := by
  rw [search, searchF_succ, if_neg (by simp [hsol]), if_pos hsea, h0]
  rfl

/-- `search` when the chosen box is already solved (possible only when some
cell has more than nine candidates): the guesses drain the fuel to `none`. -/
theorem search_gs_one {b : Board} (hsol : is_solved (reduceLoop b) = false)
    (hsea : is_searchable (reduceLoop b) = true)
    (h1 : (getCell (reduceLoop b) (find_smallest_box (reduceLoop b))).length = 1) :
    search b = none := by
  have hstuck := stuck_none (reduceLoop_fix b) hsol hsea h1
  obtain ⟨g0, hg0⟩ := List.length_eq_one.1 h1
  rw [search, searchF_succ, if_neg (by simp [hsol]), if_pos hsea, hg0,
    List.findSome?_cons]
  have harg : setCell (reduceLoop b) (find_smallest_box (reduceLoop b)) [g0] =
      reduceLoop b := by
    rw [show [g0] = getCell (reduceLoop b) (find_smallest_box (reduceLoop b))
      from hg0.symm]
    exact setCell_self _ _
  rw [harg, hstuck (totalLen b)]
  rfl

set_option maxHeartbeats 800000 in
/-- `search` at a branch point tries the guesses of the smallest box in
order, recursing on an updated copy of the board. -/
theorem search_branch_eq {b : Board} (hsol : is_solved (reduceLoop b) = false)
    (hsea : is_searchable (reduceLoop b) = true)
    (hge : 2 ≤ (getCell (reduceLoop b) (find_smallest_box (reduceLoop b))).length) :
    search b =
      (getCell (reduceLoop b) (find_smallest_box (reduceLoop b))).findSome?
        (fun g => search (setCell (reduceLoop b) (find_smallest_box (reduceLoop b)) [g])) := by
  rw [search, searchF_succ, if_neg (by simp [hsol]), if_pos hsea]
  apply findSome?_ext
  intro g hg
  have harg : totalLen (setCell (reduceLoop b) (find_smallest_box (reduceLoop b)) [g]) <
      totalLen (reduceLoop b) := by
    apply totalLen_setCell_lt (fsb_spec (reduceLoop b)).1
    simp only [List.length_cons, List.length_nil]
    omega
  have hvb : totalLen (reduceLoop b) ≤ totalLen b := psub_totalLen_le (reduceLoop_psub b)
  rw [show search (setCell (reduceLoop b) (find_smallest_box (reduceLoop b)) [g]) =
      searchF (totalLen (setCell (reduceLoop b) (find_smallest_box (reduceLoop b)) [g]) + 1)
        (setCell (reduceLoop b) (find_smallest_box (reduceLoop b)) [g]) from rfl]
  exact searchF_congr (by omega) (Nat.lt_succ_self _)

/-- Any board that `searchF` returns passed the solved test after the
reduction loop, hence is a `reduce_puzzle` fixpoint satisfying `is_solved`. -/
theorem searchF_some : ∀ (fuel : Nat) (b r : Board), searchF fuel b = some r →
    is_solved r = true ∧ reduce_puzzle r = r := by
  intro fuel
  induction fuel with
  | zero => intro b r h; cases h
  | succ n ih =>
    intro b r h
    simp only [searchF] at h
    by_cases hsol : is_solved (reduceLoop b) = true
    · rw [if_pos hsol] at h
      cases h
      exact ⟨hsol, reduceLoop_fix b⟩
    · rw [if_neg hsol] at h
      by_cases hsea : is_searchable (reduceLoop b) = true
      · rw [if_pos hsea] at h
        obtain ⟨g, _, hfg⟩ := findSome?_eq_some_ex h
        exact ih _ r hfg
      · rw [if_neg hsea] at h
        cases h

theorem search_some {b r : Board} (h : search b = some r) :
    is_solved r = true ∧ reduce_puzzle r = r :=
  searchF_some _ b r h

/-! ## At a propagation fixpoint, a solved board has 81 solved cells -/

/-- A `reduce_puzzle` fixpoint is a fixpoint of each constituent pass. -/
theorem reduce_fix_parts {b : Board} (h : reduce_puzzle b = b) :
    eliminate b = b ∧ only_choice b = b ∧ naked_twins b = b := by
  have hn : naked_twins (only_choice (eliminate b)) = b := h
  have he : eliminate b = b := by
    apply board_ext
    intro i _
    have s1 := naked_twins_psub (only_choice (eliminate b)) i
    have s2 := only_choice_psub (eliminate b) i
    have s3 := eliminate_psub b i
    rw [hn] at s1
    exact s3.eq_of_length
      (Nat.le_antisymm s3.length_le (s1.length_le.trans s2.length_le))
  have ho : only_choice b = b := by
    apply board_ext
    intro i _
    have s1 := naked_twins_psub (only_choice (eliminate b)) i
    have s2 := only_choice_psub (eliminate b) i
    rw [hn] at s1
    rw [he] at s2
    exact s2.eq_of_length (Nat.le_antisymm s2.length_le (by rw [he] at s1; exact s1.length_le))
  refine ⟨he, ho, ?_⟩
  rw [he, ho] at hn
  exact hn

/-- At an `only_choice` fixpoint, any digit with a single place in a unit is
already assigned there. -/
theorem only_choice_fix_assign {b : Board} (hoc : only_choice b = b) :
    ∀ u ∈ unitsIdx, ∀ d ∈ digits, ∀ j : Nat,
      u.filter (fun i => decide (d ∈ getCell b i)) = [j] → getCell b j = [d] := by
  intro u hu d hd j hj
  have houter :=
    foldl_fix_steps (f := fun acc u => digits.foldl (fun a2 d => oc_step a2 u d) acc)
      (fun a x => foldl_psub (fun a2 d => oc_step_psub a2 x d)) hoc u hu
  have hinner := foldl_fix_steps (fun a2 d => oc_step_psub a2 u d) houter d hd
  rw [oc_step] at hinner
  rw [hj] at hinner
  simp only [List.length_singleton, List.headD_cons, if_pos] at hinner
  have hj81 : j < 81 := units_lt81 u hu j (by
    have : j ∈ u.filter (fun i => decide (d ∈ getCell b i)) := by
      rw [hj]; exact List.mem_singleton_self j
    exact List.mem_of_mem_filter this)
  have hval : getCell (setCell b j [d]) j = [d] := getCell_setCell_self b j [d] hj81
  rw [hinner] at hval
  exact hval

theorem le_sum_of_mem_nat : ∀ {l : List Nat} {x : Nat}, x ∈ l → x ≤ l.sum := by
  intro l
  induction l with
  | nil => intro x hx; cases hx
  | cons y ys ih =>
    intro x hx
    rw [List.sum_cons]
    rcases List.mem_cons.1 hx with rfl | hx'
    · omega
    · have := ih hx'
      omega

theorem filter_eq_singleton {p : Nat → Bool} :
    ∀ {u : List Nat} {j : Nat}, u.Nodup → j ∈ u → p j = true →
      (∀ k ∈ u, k ≠ j → p k = false) → u.filter p = [j] := by
  intro u
  induction u with
  | nil => intro j _ hj; cases hj
  | cons x xs ih =>
    intro j hnd hj hpj hother
    have hnd' := List.nodup_cons.1 hnd
    rcases List.mem_cons.1 hj with rfl | hj'
    · rw [List.filter_cons_of_pos hpj]
      have : xs.filter p = [] := by
        rw [List.filter_eq_nil_iff]
        intro k hk
        have hkj : k ≠ j := fun hkj => hnd'.1 (hkj ▸ hk)
        rw [hother k (List.mem_cons_of_mem j hk) hkj]
        exact Bool.false_ne_true
      rw [this]
    · have hxj : x ≠ j := fun hxj => hnd'.1 (hxj ▸ hj')
      rw [List.filter_cons_of_neg (by rw [hother x (List.mem_cons_self x xs) hxj]; exact
        Bool.false_ne_true)]
      exact ih hnd'.2 hj' hpj (fun k hk => hother k (List.mem_cons_of_mem x hk))

/-- In a unit whose concatenated candidates are a permutation of the nine
digits, an `only_choice` fixpoint forces every inhabited cell to be solved. -/
theorem unit_cell_singleton {b : Board} (hoc : only_choice b = b) {u : List Nat}
    (hu : u ∈ unitsIdx)
    (hperm : List.Perm ((u.map (getCell b)).flatten) digits) :
    ∀ j ∈ u, ∀ d ∈ getCell b j, getCell b j = [d] := by
  intro j hj d hd
  have hdmem : d ∈ (u.map (getCell b)).flatten :=
    List.mem_flatten.2 ⟨getCell b j, List.mem_map_of_mem (getCell b) hj, hd⟩
  have hcd : ((u.map (getCell b)).flatten).count d = 1 := by
    rw [hperm.count_eq]
    exact List.count_eq_one_of_mem digits_nodup (hperm.mem_iff.1 hdmem)
  rw [List.count_flatten, List.map_map] at hcd
  have hjcount : 1 ≤ (getCell b j).count d := List.count_pos_iff.2 hd
  obtain ⟨s, t, hst⟩ := List.append_of_mem hj
  have hnd : u.Nodup := units_nodup u hu
  have hsplit : ((s.map (fun k => (getCell b k).count d)).sum +
      ((getCell b j).count d +
        (t.map (fun k => (getCell b k).count d)).sum)) = 1 := by
    rw [hst] at hcd
    simpa [List.map_append, List.sum_append, Function.comp] using hcd
  have hs0 : (s.map (fun k => (getCell b k).count d)).sum = 0 := by omega
  have ht0 : (t.map (fun k => (getCell b k).count d)).sum = 0 := by omega
  have hfilter : u.filter (fun i => decide (d ∈ getCell b i)) = [j] := by
    apply filter_eq_singleton hnd hj (decide_eq_true hd)
    intro k hk hkj
    have hk0 : (getCell b k).count d = 0 := by
      rw [hst] at hk
      rcases List.mem_append.1 hk with hks | hkt
      · have : (getCell b k).count d ≤ (s.map (fun k => (getCell b k).count d)).sum :=
          le_sum_of_mem_nat (List.mem_map_of_mem _ hks)
        omega
      · rcases List.mem_cons.1 hkt with rfl | hkt'
        · exact absurd rfl hkj
        · have : (getCell b k).count d ≤ (t.map (fun k => (getCell b k).count d)).sum :=
            le_sum_of_mem_nat (List.mem_map_of_mem _ hkt')
          omega
    rw [decide_eq_false_iff_not]
    intro hmem
    have := List.count_pos_iff.2 hmem
    omega
  exact only_choice_fix_assign hoc u hu d (hperm.mem_iff.1 hdmem) j hfilter

theorem all_one_of_sum_eq_length :
    ∀ (l : List Nat), (∀ x ∈ l, x ≤ 1) → l.sum = l.length → ∀ x ∈ l, x = 1 := by
  intro l
  induction l with
  | nil => intro _ _ x hx; cases hx
  | cons y ys ih =>
    intro hle hsum x hx
    have hysle : ys.sum ≤ ys.length := by
      have := List.sum_le_card_nsmul ys 1 (fun x hx => hle x (List.mem_cons_of_mem y hx))
      simpa using this
    have hy1 : y ≤ 1 := hle y (List.mem_cons_self y ys)
    rw [List.sum_cons, List.length_cons] at hsum
    have hy : y = 1 := by omega
    rcases List.mem_cons.1 hx with rfl | hx'
    · exact hy
    · exact ih (fun z hz => hle z (List.mem_cons_of_mem y hz)) (by omega) x hx'

/-- In a unit whose concatenated candidates are a permutation of the nine
digits, an `only_choice` fixpoint forces all nine cells to be solved. -/
theorem unit_lengths {b : Board} (hoc : only_choice b = b) {u : List Nat}
    (hu : u ∈ unitsIdx)
    (hperm : List.Perm ((u.map (getCell b)).flatten) digits) :
    ∀ j ∈ u, (getCell b j).length = 1 := by
  have hle1 : ∀ j ∈ u, (getCell b j).length ≤ 1 := by
    intro j hj
    match hcell : getCell b j with
    | [] => simp
    | d :: rest =>
      have := unit_cell_singleton hoc hu hperm j hj d (by
        rw [hcell]; exact List.mem_cons_self d rest)
      rw [hcell] at this
      rw [this]
      rfl
  have hsum : (u.map (fun k => (getCell b k).length)).sum = 9 := by
    have hlen := hperm.length_eq
    rw [List.length_flatten, List.map_map] at hlen
    simpa [Function.comp] using hlen
  have hcard : u.length = 9 := units_length9 u hu
  intro j hj
  exact all_one_of_sum_eq_length (u.map (fun k => (getCell b k).length))
    (fun x hx => by
      obtain ⟨k, hk, rfl⟩ := List.mem_map.1 hx
      exact hle1 k hk)
    (by rw [hsum, List.length_map, hcard])
    _ (List.mem_map_of_mem _ hj)

/-- At a `reduce_puzzle` fixpoint the solved test certifies that all 81
cells hold exactly one candidate. -/
theorem solved_fix_len1 {b : Board} (hfix : reduce_puzzle b = b)
    (hsol : is_solved b = true) : ∀ i, i < 81 → (getCell b i).length = 1 := by
  have hoc := (reduce_fix_parts hfix).2.1
  intro i hi
  obtain ⟨u, hu, hiu⟩ := units_cover i (List.mem_range.2 hi)
  have hperm : List.Perm ((u.map (getCell b)).flatten) digits := by
    have hsort := is_solved_iff.1 hsol u hu
    exact hsort ▸ (sortChars_perm _).symm
  exact unit_lengths hoc hu hperm i hiu

/-! ## The per-unit step of `naked_twins` with a single firing pair -/

theorem firstDedupAux_mem {α : Type} [DecidableEq α] :
    ∀ (seen l : List α) (x : α), x ∈ firstDedupAux seen l ↔ x ∈ l ∧ x ∉ seen := by
  intro seen l
  induction l generalizing seen with
  | nil => intro x; rw [firstDedupAux]; simp
  | cons y ys ih =>
    intro x
    rw [firstDedupAux]
    by_cases hy : y ∈ seen
    · rw [if_pos hy, ih seen x]
      constructor
      · exact fun ⟨h1, h2⟩ => ⟨List.mem_cons_of_mem y h1, h2⟩
      · rintro ⟨h1, h2⟩
        rcases List.mem_cons.1 h1 with rfl | h1'
        · exact absurd hy h2
        · exact ⟨h1', h2⟩
    · rw [if_neg hy]
      constructor
      · intro hx
        rcases List.mem_cons.1 hx with rfl | hx'
        · exact ⟨List.mem_cons_self x ys, hy⟩
        · obtain ⟨h1, h2⟩ := (ih (y :: seen) x).1 hx'
          exact ⟨List.mem_cons_of_mem y h1,
            fun hs => h2 (List.mem_cons_of_mem y hs)⟩
      · rintro ⟨h1, h2⟩
        rcases List.mem_cons.1 h1 with rfl | h1'
        · exact List.mem_cons_self x _
        · by_cases hxy : x = y
          · subst hxy; exact List.mem_cons_self x _
          · exact List.mem_cons_of_mem y ((ih (y :: seen) x).2
              ⟨h1', fun hs => (List.mem_cons.1 hs).elim hxy h2⟩)

theorem firstDedup_mem {α : Type} [DecidableEq α] {l : List α} {x : α} :
    x ∈ firstDedup l ↔ x ∈ l := by
  rw [firstDedup, firstDedupAux_mem]
  simp

theorem firstDedupAux_nodup {α : Type} [DecidableEq α] :
    ∀ (seen l : List α), (firstDedupAux seen l).Nodup := by
  intro seen l
  induction l generalizing seen with
  | nil => rw [firstDedupAux]; exact List.nodup_nil
  | cons y ys ih =>
    rw [firstDedupAux]
    by_cases hy : y ∈ seen
    · rw [if_pos hy]; exact ih seen
    · rw [if_neg hy]
      refine List.nodup_cons.2 ⟨?_, ih (y :: seen)⟩
      intro hmem
      exact ((firstDedupAux_mem (y :: seen) ys y).1 hmem).2 (List.mem_cons_self y seen)

theorem firstDedup_nodup {α : Type} [DecidableEq α] (l : List α) :
    (firstDedup l).Nodup := firstDedupAux_nodup [] l

theorem foldl_id_strong {α : Type} {f : Board → α → Board} {l : List α} {b : Board}
    (h : ∀ (x : Board) (q : α), q ∈ l → f x q = x) : l.foldl f b = b := by
  induction l generalizing b with
  | nil => rfl
  | cons x xs ih =>
    rw [List.foldl_cons, h b x (List.mem_cons_self x xs)]
    exact ih (fun y q hq => h y q (List.mem_cons_of_mem x hq))

/-- The inner removal loop writes only cells of the unit. -/
theorem nt_inner_frame {p : List Char} {a c : Char} :
    ∀ (u' : List Nat) (acc : Board) (i : Nat), i ∉ u' →
      getCell (u'.foldl (fun a2 k => if getCell a2 k = p then a2
        else setCell a2 k ((getCell a2 k).filter (fun ch => decide (ch ≠ a ∧ ch ≠ c))))
        acc) i = getCell acc i := by
  intro u'
  induction u' with
  | nil => intro acc i _; rfl
  | cons k ks ih =>
    intro acc i hi
    have hik : i ≠ k := fun h => hi (h ▸ List.mem_cons_self k ks)
    have hiks : i ∉ ks := fun h => hi (List.mem_cons_of_mem k h)
    rw [List.foldl_cons, ih _ i hiks]
    split
    · rfl
    · exact getCell_setCell_ne acc k i _ (fun h => hik h.symm)

/-- The inner removal loop: each cell of the unit keeps its value if it
equals the pair, and is filtered otherwise. -/
theorem nt_inner_spec {b : Board} {p : List Char} {a c : Char} :
    ∀ (u' : List Nat) (acc : Board), u'.Nodup → (∀ k ∈ u', k < 81) →
      (∀ k ∈ u', getCell acc k = getCell b k) →
      ∀ i ∈ u', getCell (u'.foldl (fun a2 k => if getCell a2 k = p then a2
        else setCell a2 k ((getCell a2 k).filter (fun ch => decide (ch ≠ a ∧ ch ≠ c))))
        acc) i =
        (if getCell b i = p then getCell b i
         else (getCell b i).filter (fun ch => decide (ch ≠ a ∧ ch ≠ c))) := by
  intro u'
  induction u' with
  | nil => intro acc _ _ _ i hi; cases hi
  | cons k ks ih =>
    intro acc hnd hlt hsame i hi
    have hnd' := List.nodup_cons.1 hnd
    have hacc : getCell acc k = getCell b k := hsame k (List.mem_cons_self k ks)
    rw [List.foldl_cons]
    rcases List.mem_cons.1 hi with rfl | hi'
    · rw [nt_inner_frame ks _ i hnd'.1]
      by_cases hp : getCell b i = p
      · rw [if_pos (by rw [hacc]; exact hp), if_pos hp, hacc]
      · rw [if_neg (by rw [hacc]; exact hp), if_neg hp]
        rw [getCell_setCell_self _ i _ (hlt i (List.mem_cons_self i ks)), hacc]
    · apply ih _ hnd'.2 (fun q hq => hlt q (List.mem_cons_of_mem k hq)) _ i hi'
      intro q hq
      have hqk : q ≠ k := fun h => hnd'.1 (h ▸ hq)
      split
      · exact hsame q (List.mem_cons_of_mem k hq)
      · rw [getCell_setCell_ne acc k q _ (fun h => hqk h.symm)]
        exact hsame q (List.mem_cons_of_mem k hq)

/-- Splitting a fold whose steps are the identity except at one element. -/
theorem foldl_split_single {α : Type} {f : Board → α → Board} {l k1 k2 : List α}
    {p : α} {b : Board} (hl : l = k1 ++ p :: k2)
    (hid : ∀ (x : Board) (q : α), q ∈ l → q ≠ p → f x q = x)
    (hk1 : p ∉ k1) (hk2 : p ∉ k2) :
    l.foldl f b = f b p := by
  subst hl
  rw [List.foldl_append, List.foldl_cons]
  rw [foldl_id_strong (fun x q hq => hid x q (List.mem_append_left _ hq)
    (fun he => hk1 (he ▸ hq)))]
  exact foldl_id_strong (fun x q hq => hid x q
    (List.mem_append_right _ (List.mem_cons_of_mem p hq)) (fun he => hk2 (he ▸ hq)))

/-- When exactly one two-character value fires in a unit, the per-unit body
of `naked_twins` performs exactly that removal. -/
theorem nt_unit_single_pair {b : Board} {u : List Nat} (hu : u ∈ unitsIdx)
    {a c : Char}
    (hcount : ((u.map (getCell b)).filter (fun v => decide (v.length = 2))).count
      ([a, c]) = 2)
    (hother : ∀ q ∈ (u.map (getCell b)).filter (fun v => decide (v.length = 2)),
      q ≠ [a, c] →
      ((u.map (getCell b)).filter (fun v => decide (v.length = 2))).count q ≠ 2) :
    ∀ i ∈ u, getCell (nt_unit b u) i =
      (if getCell b i = [a, c] then getCell b i
       else (getCell b i).filter (fun ch => decide (ch ≠ a ∧ ch ≠ c))) := by
  intro i hi
  have hmem : ([a, c] : List Char) ∈
      (u.map (getCell b)).filter (fun v => decide (v.length = 2)) := by
    rw [← List.count_pos_iff, hcount]
    omega
  have hkeys : ([a, c] : List Char) ∈
      firstDedup ((u.map (getCell b)).filter (fun v => decide (v.length = 2))) :=
    firstDedup_mem.2 hmem
  obtain ⟨k1, k2, hsplit⟩ := List.append_of_mem hkeys
  have hnd := firstDedup_nodup ((u.map (getCell b)).filter (fun v => decide (v.length = 2)))
  rw [hsplit] at hnd
  have hnotk1 : ([a, c] : List Char) ∉ k1 := by
    intro hin
    exact List.disjoint_of_nodup_append hnd hin (List.mem_cons_self _ _)
  have hnotk2 : ([a, c] : List Char) ∉ k2 :=
    (List.nodup_cons.1 ((List.nodup_append.1 hnd).2.1)).1
  have hstep : ∀ (x : Board) (q : List Char),
      q ∈ firstDedup ((u.map (getCell b)).filter (fun v => decide (v.length = 2))) →
      q ≠ [a, c] →
      (if ((u.map (getCell b)).filter (fun v => decide (v.length = 2))).count q = 2
       then nt_removePair u q x else x) = x :=
    fun x q hq hqne => if_neg (hother q (firstDedup_mem.1 hq) hqne)
  have heq : nt_unit b u = nt_removePair u [a, c] b := by
    show (firstDedup ((u.map (getCell b)).filter (fun v => decide (v.length = 2)))).foldl
      (fun acc q =>
        if ((u.map (getCell b)).filter (fun v => decide (v.length = 2))).count q = 2
        then nt_removePair u q acc else acc) b = _
    rw [foldl_split_single hsplit hstep hnotk1 hnotk2, if_pos hcount]
  rw [heq]
  exact nt_inner_spec u b (units_nodup u hu) (units_lt81 u hu) (fun k _ => rfl) i hi

/-- Counting a two-character value among a unit's two-character values is
counting the cells that hold it. -/
theorem pairs_count_eq (b : Board) (u : List Nat) (a c : Char) :
    ((u.map (getCell b)).filter (fun v => decide (v.length = 2))).count ([a, c]) =
      (u.filter (fun i => decide (getCell b i = [a, c]))).length := by
  induction u with
  | nil => rfl
  | cons k ks ih =>
    simp only [List.map_cons, List.filter_cons]
    by_cases h : getCell b k = [a, c]
    · rw [h]
      simp only [List.length_cons, decide_eq_true rfl, if_pos, List.count_cons]
      simp [ih]
    · by_cases h2 : (getCell b k).length = 2
      · simp only [decide_eq_true h2, if_pos, List.count_cons, decide_eq_false h, if_neg]
        simp [ih, h]
      · simp [h2, h, ih]

/-- Membership in a peer set, characterised through the unit lists. -/
theorem mem_peers_iff {x y : String} :
    x ∈ peers y ↔ x ≠ y ∧ ∃ u ∈ units, y ∈ u ∧ x ∈ u := by
  rw [peers, Finset.mem_erase]
  constructor
  · rintro ⟨hne, hmem⟩
    rw [List.mem_toFinset, List.mem_flatten] at hmem
    obtain ⟨l, hl, hx⟩ := hmem
    rw [boxdict] at hl
    obtain ⟨hlu, hyl⟩ := List.mem_filter.1 hl
    exact ⟨hne, l, hlu, of_decide_eq_true hyl, hx⟩
  · rintro ⟨hne, u, hu, hyu, hxu⟩
    refine ⟨hne, ?_⟩
    rw [List.mem_toFinset, List.mem_flatten]
    exact ⟨u, by rw [boxdict]; exact List.mem_filter.2 ⟨hu, decide_eq_true hyu⟩, hxu⟩

/-- An empty cell has the globally minimal key, so `find_smallest_box`
selects an empty cell whenever one exists. -/
theorem fsb_empty {b : Board} {i : Nat} (hi : i < 81) (h : getCell b i = []) :
    getCell b (find_smallest_box b) = [] := by
  have hkey := (fsb_spec b).2.1 i (List.mem_range.2 hi)
  have hki : fsbKey b i = 0 := by rw [fsbKey, h]; rfl
  rw [hki, Nat.le_zero] at hkey
  rw [fsbKey] at hkey
  revert hkey
  split
  · omega
  · intro hlen
    exact List.length_eq_zero.1 hlen

theorem cons_headD_tail {α : Type} (l : List α) (d : α) (h : l ≠ []) :
    l.headD d :: l.tail = l := by
  cases l with
  | nil => exact absurd rfl h
  | cons x xs => rfl

/-! ## Concrete boards

`g4grid` is the fully solved diagonal-sudoku grid `g4` shipped in the
source's `__main__` block. -/

def g4grid : List Char :=
  "267584391159362748834917526496738215312495687578621439643159872925873164781246953".toList

def b4 : Board := grid_values g4grid (by decide)

/-- The board of an all-blank grid: every cell holds all nine digits. -/
def bAll : Board := ⟨List.replicate 81 digits, by decide⟩

/-- Every cell holds the digits in descending order. -/
def bRev : Board := ⟨List.replicate 81 digits.reverse, by decide⟩

/-- Every cell is empty. -/
def bEmptyAll : Board := ⟨List.replicate 81 ([] : List Char), by decide⟩

/-- One empty cell on an otherwise all-candidate board. -/
def bC10 : Board := ⟨[] :: List.replicate 80 digits, by decide⟩

/-- Row `A` holds the overlapping naked pairs `12, 12, 13, 13`. -/
def bC4 : Board :=
  ⟨[['1', '2'], ['1', '2'], ['1', '3'], ['1', '3']] ++ List.replicate 77 digits, by decide⟩

/-- What `naked_twins` makes of `bC4`: processing pair `12` turns the `13`
cells into `3` and strips `A5..A9` to `3456789`; processing pair `13` then
strips the `12` twins to `2`, empties the former `13` cells, and leaves
`A5..A9` as `456789`. -/
def bC4x : Board :=
  ⟨[['2'], ['2'], [], []] ++ List.replicate 5 ['4', '5', '6', '7', '8', '9'] ++
    List.replicate 72 digits, by decide⟩

/-- Row `A` holds a single naked pair `12, 12`. -/
def bC4W : Board := ⟨[['1', '2'], ['1', '2']] ++ List.replicate 79 digits, by decide⟩

/-! ## Checked facts about the concrete boards -/

set_option maxHeartbeats 3200000 in
theorem b4_eliminate : eliminate b4 = b4 := eliminate_fixed (by decide)

set_option maxHeartbeats 1600000 in
theorem b4_only_choice : only_choice b4 = b4 := only_choice_fixed (by decide)

set_option maxHeartbeats 1600000 in
theorem b4_naked_twins : naked_twins b4 = b4 := naked_twins_fixed (by decide)

theorem b4_reduce : reduce_puzzle b4 = b4 :=
  reduce_puzzle_fixed b4_eliminate b4_only_choice b4_naked_twins

set_option maxHeartbeats 1600000 in
theorem b4_solved : is_solved b4 = true := by decide

theorem b4_search : search b4 = some b4 := by
  have hrl : reduceLoop b4 = b4 := reduceLoop_eq_self b4_reduce
  have hsol : is_solved (reduceLoop b4) = true := by rw [hrl]; exact b4_solved
  rw [search_solved_eq hsol, hrl]

set_option maxHeartbeats 1600000 in
theorem bAll_reduce : reduce_puzzle bAll = bAll :=
  reduce_puzzle_fixed (eliminate_fixed (by decide)) (only_choice_fixed (by decide))
    (naked_twins_fixed (by decide))

set_option maxHeartbeats 1600000 in
theorem bRev_reduce : reduce_puzzle bRev = bRev :=
  reduce_puzzle_fixed (eliminate_fixed (by decide)) (only_choice_fixed (by decide))
    (naked_twins_fixed (by decide))

set_option maxHeartbeats 1600000 in
theorem bEmptyAll_reduce : reduce_puzzle bEmptyAll = bEmptyAll :=
  reduce_puzzle_fixed (eliminate_fixed (by decide)) (only_choice_fixed (by decide))
    (naked_twins_fixed (by decide))

set_option maxHeartbeats 1600000 in
theorem bC4_nt_unit : nt_unit bC4 (unitsIdx.headD []) = bC4x := by decide

set_option maxHeartbeats 1600000 in
theorem bC4_naked_twins : naked_twins bC4 = bC4x := by
  have hne : unitsIdx ≠ [] := by decide
  rw [naked_twins, ← cons_headD_tail unitsIdx [] hne, List.foldl_cons, bC4_nt_unit]
  exact foldl_id (fun u hu => nt_unit_fixed (by revert u hu; decide))





/-! ## The claims -/

theorem findSome?_eq_none_of_all {α β : Type} {f : α → Option β} :
    ∀ {l : List α}, (∀ a ∈ l, f a = none) → l.findSome? f = none
  | [], _ => rfl
  | a :: l, h => by
    rw [List.findSome?_cons, h a (List.mem_cons_self a l)]
    exact findSome?_eq_none_of_all (fun x hx => h x (List.mem_cons_of_mem a hx))

/-- C1: every Board that `search` (and hence `solve`) returns as a solved
result satisfies, in each of the 29 units, that the sorted concatenation of
the nine candidate strings is exactly `123456789` — nine distinct digits,
no omissions, no repeats. -/
theorem C1_solution_validity :
    (∀ b r : Board, search b = some r →
      ∀ u ∈ unitsIdx, sortChars ((u.map (getCell r)).flatten) = "123456789".toList) ∧
    (∀ (g : List Char) (hg : g.length = 81) (r : Board), solve g hg = some r →
      ∀ u ∈ unitsIdx, sortChars ((u.map (getCell r)).flatten) = "123456789".toList) ∧
    units.length = 29 := by
  refine ⟨?_, ?_, units_count⟩
  · intro b r h u hu
    exact is_solved_iff.1 (search_some h).1 u hu
  · intro g hg r h u hu
    exact is_solved_iff.1 (search_some h).1 u hu

theorem C1_witness :
    sortChars (((unitsIdx.headD []).map (getCell b4)).flatten) = "123456789".toList :=
  C1_solution_validity.1 b4 b4 b4_search (unitsIdx.headD []) (by decide)

/-- C2: `search` never returns a Board containing an unsolved cell — if it
returns a Board rather than the failure value, all 81 cells hold exactly one
candidate.  (The solved test checks only per-unit sorted concatenations, but
a returned board is a propagation fixpoint, where no unit can pass the test
with a cell of zero or several candidates.) -/
theorem C2_search_all_solved : ∀ b r : Board, search b = some r →
    ∀ i, i < 81 → (getCell r i).length = 1 := by
  intro b r h i hi
  exact solved_fix_len1 (search_some h).2 (search_some h).1 i hi

theorem C2_witness : (getCell b4 0).length = 1 :=
  C2_search_all_solved b4 b4 b4_search 0 (by omega)

/-- C3: monotonic shrink — after a single application of `eliminate`,
`only_choice` or `naked_twins` to any board, no cell's candidate set grows:
every digit present afterwards was present before. -/
theorem C3_monotonic_shrink : ∀ (b : Board) (i : Nat) (ch : Char),
    (ch ∈ getCell (eliminate b) i → ch ∈ getCell b i) ∧
    (ch ∈ getCell (only_choice b) i → ch ∈ getCell b i) ∧
    (ch ∈ getCell (naked_twins b) i → ch ∈ getCell b i) :=
  fun b i _ =>
    ⟨fun h => (eliminate_psub b i).subset h,
     fun h => (only_choice_psub b i).subset h,
     fun h => (naked_twins_psub b i).subset h⟩

theorem C3_witness : ('2' ∈ getCell b4 0) ∧ ('2' ∈ getCell b4 0) ∧ ('2' ∈ getCell b4 0) :=
  ⟨(C3_monotonic_shrink b4 0 '2').1 (by rw [b4_eliminate]; decide),
   (C3_monotonic_shrink b4 0 '2').2.1 (by rw [b4_only_choice]; decide),
   (C3_monotonic_shrink b4 0 '2').2.2 (by rw [b4_naked_twins]; decide)⟩

/-- C4 as stated: for every board and unit, if exactly two distinct cells
share the two-candidate value `{a,c}`, then `naked_twins` removes `a` and
`c` from every other cell of the unit and leaves the twins untouched; and
whenever `naked_twins` removes a digit `d` from a cell, the unit held
exactly two other cells whose value was exactly a pair containing `d`, the
removed-from cell not holding that pair. -/
def C4_claim : Prop := ∀ (b : Board), ∀ u ∈ unitsIdx,
    (∀ a c : Char, a ≠ c →
      (u.filter (fun i => decide (getCell b i = [a, c]))).length = 2 →
      (∀ i ∈ u, getCell b i = [a, c] → getCell (naked_twins b) i = [a, c]) ∧
      (∀ i ∈ u, getCell b i ≠ [a, c] →
        a ∉ getCell (naked_twins b) i ∧ c ∉ getCell (naked_twins b) i)) ∧
    (∀ i ∈ u, ∀ d : Char, d ∈ getCell b i → d ∉ getCell (naked_twins b) i →
      ∃ e : Char, getCell b i ≠ [d, e] ∧ getCell b i ≠ [e, d] ∧
        (u.filter (fun k => decide (k ≠ i ∧
          (getCell b k = [d, e] ∨ getCell b k = [e, d])))).length = 2)

/-- C4 fails on the code: on `bC4`, row `A` holds the naked twins `12` in
exactly two cells, yet processing the overlapping pair `13` of the same unit
strips the `12` twins down to `2` — the twins are not left untouched. -/
theorem C4_counterexample : ¬ C4_claim := by
  intro h
  have h1 := ((h bC4 (unitsIdx.headD []) (by decide)).1 '1' '2' (by decide) (by decide)).1
    0 (by decide) (by decide)
  rw [bC4_naked_twins] at h1
  exact absurd h1 (by decide)

/-- C4 (amended): the contract holds for the per-unit step of `naked_twins`
when `{a,c}` is the only two-candidate value held by exactly two cells of
the unit: the twins are untouched, every other cell has exactly `a` and `c`
filtered out, and any removed digit `d` is one of `a`, `c`, removed from a
cell whose value was not the pair (so the unit held exactly two other cells
valued `{d,e}`). -/
theorem C4_naked_pairs_amended : ∀ (b : Board), ∀ u ∈ unitsIdx, ∀ a c : Char, a ≠ c →
    (u.filter (fun i => decide (getCell b i = [a, c]))).length = 2 →
    (∀ q ∈ (u.map (getCell b)).filter (fun v => decide (v.length = 2)), q ≠ [a, c] →
      ((u.map (getCell b)).filter (fun v => decide (v.length = 2))).count q ≠ 2) →
    (∀ i ∈ u, getCell b i = [a, c] → getCell (nt_unit b u) i = [a, c]) ∧
    (∀ i ∈ u, getCell b i ≠ [a, c] →
      getCell (nt_unit b u) i = (getCell b i).filter (fun ch => decide (ch ≠ a ∧ ch ≠ c))) ∧
    (∀ i ∈ u, ∀ d : Char, d ∈ getCell b i → d ∉ getCell (nt_unit b u) i →
      (d = a ∨ d = c) ∧ getCell b i ≠ [a, c]) := by
  intro b u hu a c hac hcnt hother
  have hcount : ((u.map (getCell b)).filter (fun v => decide (v.length = 2))).count
      ([a, c]) = 2 := by
    rw [pairs_count_eq]
    exact hcnt
  have hspec := nt_unit_single_pair hu hcount hother
  refine ⟨?_, ?_, ?_⟩
  · intro i hi hval
    rw [hspec i hi, if_pos hval]
    exact hval
  · intro i hi hval
    rw [hspec i hi, if_neg hval]
  · intro i hi d hd hnot
    by_cases hval : getCell b i = [a, c]
    · rw [hspec i hi, if_pos hval] at hnot
      exact absurd hd hnot
    · rw [hspec i hi, if_neg hval] at hnot
      refine ⟨?_, hval⟩
      by_contra hdd
      push_neg at hdd
      exact hnot (List.mem_filter.2 ⟨hd, decide_eq_true ⟨hdd.1, hdd.2⟩⟩)

theorem C4_witness :
    getCell (nt_unit bC4W (unitsIdx.headD [])) 0 = ['1', '2'] ∧
    getCell (nt_unit bC4W (unitsIdx.headD [])) 2 =
      (getCell bC4W 2).filter (fun ch => decide (ch ≠ '1' ∧ ch ≠ '2')) :=
  ⟨(C4_naked_pairs_amended bC4W (unitsIdx.headD []) (by decide) '1' '2' (by decide)
      (by decide) (by decide)).1 0 (by decide) (by decide),
   (C4_naked_pairs_amended bC4W (unitsIdx.headD []) (by decide) '1' '2' (by decide)
      (by decide) (by decide)).2.1 2 (by decide) (by decide)⟩

/-- C5: the propagation fixpoint loop terminates on every board — finitely
many passes of `reduce_puzzle` reach a pass that changes nothing (each rule
only removes candidates, so the total candidate count cannot decrease
forever), and the loop value `reduceLoop` is such a fixpoint. -/
theorem C5_fixpoint_termination : ∀ b : Board,
    (∃ n : Nat, reduce_puzzle (reduce_puzzle^[n] b) = reduce_puzzle^[n] b) ∧
    reduce_puzzle (reduceLoop b) = reduceLoop b := by
  have H : ∀ (N : Nat) (b : Board), totalLen b < N →
      ∃ n : Nat, reduce_puzzle (reduce_puzzle^[n] b) = reduce_puzzle^[n] b := by
    intro N
    induction N using Nat.strong_induction_on with
    | _ N ih =>
      intro b hb
      by_cases h : reduce_puzzle b = b
      · exact ⟨0, by simpa using h⟩
      · obtain ⟨n, hn⟩ := ih (totalLen b) hb (reduce_puzzle b)
          (psub_totalLen_lt (reduce_puzzle_psub b) h)
        exact ⟨n + 1, by rw [Function.iterate_succ_apply]; exact hn⟩
  exact fun b => ⟨H (totalLen b + 1) b (Nat.lt_succ_self _), reduceLoop_fix b⟩

/-- C6: failure signalling — when the reduced board is not solved and not
searchable in the claim's sense (total candidate length no more than 81, or
some cell empty), and when every candidate branch of the chosen cell fails,
`search` returns the failure value `none`, distinct by type from any Board;
the top-level `solve` propagates it. -/
theorem C6_failure_signalling : ∀ b : Board,
    ((is_solved (reduceLoop b) = false) →
      (¬ (81 < totalLen (reduceLoop b)) ∨ ∃ i, i < 81 ∧ getCell (reduceLoop b) i = []) →
      search b = none) ∧
    ((is_solved (reduceLoop b) = false) → is_searchable (reduceLoop b) = true →
      (∀ g ∈ getCell (reduceLoop b) (find_smallest_box (reduceLoop b)),
        search (setCell (reduceLoop b) (find_smallest_box (reduceLoop b)) [g]) = none) →
      search b = none) ∧
    (∀ (g : List Char) (hg : g.length = 81), search (grid_values g hg) = none →
      solve g hg = none) := by
  intro b
  refine ⟨?_, ?_, fun g hg h => h⟩
  · intro hsol hcase
    rcases hcase with hns | ⟨i, hi, hempty⟩
    · apply search_not_searchable hsol
      rw [is_searchable]
      exact decide_eq_false hns
    · by_cases hsea : is_searchable (reduceLoop b) = true
      · exact search_gs_nil hsol hsea (fsb_empty hi hempty)
      · apply search_not_searchable hsol
        revert hsea
        cases is_searchable (reduceLoop b) <;> simp
  · intro hsol hsea hall
    rcases Nat.lt_or_ge
        (getCell (reduceLoop b) (find_smallest_box (reduceLoop b))).length 2 with
      hlt | hge
    · have hle1 : (getCell (reduceLoop b) (find_smallest_box (reduceLoop b))).length ≤ 1 := by
        omega
      rcases Nat.le_one_iff_eq_zero_or_eq_one.1 hle1 with h0 | h1
      · exact search_gs_nil hsol hsea (List.length_eq_zero.1 h0)
      · exact search_gs_one hsol hsea h1
    · rw [search_branch_eq hsol hsea hge]
      exact findSome?_eq_none_of_all hall

theorem C6_witness : search bEmptyAll = none :=
  (C6_failure_signalling bEmptyAll).1
    (by rw [reduceLoop_eq_self bEmptyAll_reduce]; decide)
    (Or.inl (by rw [reduceLoop_eq_self bEmptyAll_reduce]; decide))

/-- C7 as stated: at any branch point (a `reduce_puzzle` fixpoint, not
solved, searchable), the branched cell is the first unsolved cell of minimal
candidate count in row-major order, its digits are tried in ascending order,
and each recursive call receives the board with that cell set to the tried
digit. -/
def C7_claim : Prop := ∀ v : Board, reduce_puzzle v = v → is_solved v = false →
    is_searchable v = true →
    ((getCell v (find_smallest_box v)).length ≠ 1 ∧
      (∀ j, j < 81 → (getCell v j).length ≠ 1 →
        ((getCell v (find_smallest_box v)).length < (getCell v j).length ∨
         ((getCell v (find_smallest_box v)).length = (getCell v j).length ∧
          find_smallest_box v ≤ j)))) ∧
    getCell v (find_smallest_box v) = sortChars (getCell v (find_smallest_box v)) ∧
    search v = (getCell v (find_smallest_box v)).findSome?
      (fun g => search (setCell v (find_smallest_box v) [g]))

/-- C7 fails on the code: the board whose every cell is `987654321` is a
propagation fixpoint, unsolved and searchable, yet the candidates of the
branched cell are stored — and hence tried — in descending order. -/
theorem C7_counterexample : ¬ C7_claim := fun h =>
  absurd ((h bRev bRev_reduce (by decide) (by decide)).2.1) (by decide)

/-- C7 (amended): at a branch point of a board whose candidate strings are
sorted ascending and of length at most nine — as holds for every board built
by `grid_values` and shrunk by the rules — the branched cell is the first
unsolved cell of minimal candidate count in row-major order, its digits are
tried in the stored (ascending) order, and each recursive call receives the
board with that cell set to the tried digit. -/
theorem C7_branch_amended : ∀ v : Board, reduce_puzzle v = v → is_solved v = false →
    is_searchable v = true →
    (∀ i, i < 81 → getCell v i = sortChars (getCell v i)) →
    (∀ i, i < 81 → (getCell v i).length ≤ 9) →
    ((getCell v (find_smallest_box v)).length ≠ 1 ∧
      (∀ j, j < 81 → (getCell v j).length ≠ 1 →
        ((getCell v (find_smallest_box v)).length < (getCell v j).length ∨
         ((getCell v (find_smallest_box v)).length = (getCell v j).length ∧
          find_smallest_box v ≤ j)))) ∧
    getCell v (find_smallest_box v) = sortChars (getCell v (find_smallest_box v)) ∧
    search v = (getCell v (find_smallest_box v)).findSome?
      (fun g => search (setCell v (find_smallest_box v) [g])) := by
  intro v hfix hsol hsea hsorted hlen9
  have hrl : reduceLoop v = v := reduceLoop_eq_self hfix
  obtain ⟨i, hi, h2⟩ := searchable_two hsea
  have hnot1 : (getCell v (find_smallest_box v)).length ≠ 1 :=
    fsb_not_solved hi h2 (hlen9 i hi)
  obtain ⟨hfsb81, hmin, htie⟩ := fsb_spec v
  refine ⟨⟨hnot1, ?_⟩, hsorted _ hfsb81, ?_⟩
  · intro j hj hj1
    have hle := hmin j (List.mem_range.2 hj)
    rw [fsbKey, if_neg hnot1, fsbKey, if_neg hj1] at hle
    rcases Nat.lt_or_ge (getCell v (find_smallest_box v)).length (getCell v j).length with
      hlt | hgee
    · exact Or.inl hlt
    · have heq : (getCell v (find_smallest_box v)).length = (getCell v j).length := by
        omega
      refine Or.inr ⟨heq, htie j (List.mem_range.2 hj) ?_⟩
      rw [fsbKey, if_neg hnot1, fsbKey, if_neg hj1]
      exact heq
  · rcases Nat.lt_or_ge (getCell v (find_smallest_box v)).length 2 with hlt | hge
    · have h0 : getCell v (find_smallest_box v) = [] := by
        apply List.length_eq_zero.1
        omega
      rw [h0]
      rw [search_gs_nil (by rw [hrl]; exact hsol) (by rw [hrl]; exact hsea)
        (by rw [hrl]; exact h0)]
      rfl
    · have heq := search_branch_eq (b := v) (by rw [hrl]; exact hsol)
        (by rw [hrl]; exact hsea) (by rw [hrl]; exact hge)
      rw [hrl] at heq
      exact heq

set_option maxHeartbeats 1600000 in
theorem C7_witness :
    (((getCell bAll (find_smallest_box bAll)).length ≠ 1 ∧
      (∀ j, j < 81 → (getCell bAll j).length ≠ 1 →
        ((getCell bAll (find_smallest_box bAll)).length < (getCell bAll j).length ∨
         ((getCell bAll (find_smallest_box bAll)).length = (getCell bAll j).length ∧
          find_smallest_box bAll ≤ j)))) ∧
    getCell bAll (find_smallest_box bAll) =
      sortChars (getCell bAll (find_smallest_box bAll)) ∧
    search bAll = (getCell bAll (find_smallest_box bAll)).findSome?
      (fun g => search (setCell bAll (find_smallest_box bAll) [g]))) :=
  C7_branch_amended bAll bAll_reduce (by decide) (by decide) (by decide) (by decide)

/-- C9: peer symmetry (`a ∈ peers b` iff `b ∈ peers a`), no cell is its own
peer, and every cell on neither diagonal has exactly 20 peers. -/
theorem C9_peer_invariants : ∀ a ∈ boxes, ∀ b ∈ boxes,
    (a ∈ peers b ↔ b ∈ peers a) ∧ a ∉ peers a ∧
    (a ∉ diag_units.getD 0 [] → a ∉ diag_units.getD 1 [] → (peers a).card = 20) := by
  have hcard : ∀ a ∈ boxes, a ∉ diag_units.getD 0 [] → a ∉ diag_units.getD 1 [] →
      (peers a).card = 20 := by decide
  intro a ha b hb
  refine ⟨?_, ?_, hcard a ha⟩
  · rw [mem_peers_iff, mem_peers_iff]
    constructor
    · rintro ⟨hne, u, hu, h1, h2⟩
      exact ⟨hne.symm, u, hu, h2, h1⟩
    · rintro ⟨hne, u, hu, h1, h2⟩
      exact ⟨hne.symm, u, hu, h2, h1⟩
  · rw [mem_peers_iff]
    rintro ⟨hne, _⟩
    exact hne rfl

theorem C9_witness :
    (("A2" ∈ peers "B1") ↔ ("B1" ∈ peers "A2")) ∧ "A2" ∉ peers "A2" ∧
    (peers "A2").card = 20 := by
  have h := C9_peer_invariants "A2" (by decide) "B1" (by decide)
  exact ⟨h.1, h.2.1, h.2.2 (by decide) (by decide)⟩

/-- C10: a board with an empty cell but total candidate length above 81 is
still `is_searchable`; `find_smallest_box` then selects an empty cell (its
key 0 beats every solved cell's 10 and every longer string), and `search`
returns the failure value without any recursive call (the guess loop runs
over an empty candidate string). -/
theorem C10_empty_cell_paths : ∀ b : Board, (∃ i, i < 81 ∧ getCell b i = []) →
    81 < totalLen b →
    is_searchable b = true ∧ getCell b (find_smallest_box b) = [] ∧ search b = none := by
  rintro b ⟨i, hi, hempty⟩ h81
  refine ⟨decide_eq_true h81, fsb_empty hi hempty, ?_⟩
  have hempty2 : getCell (reduceLoop b) i = [] := by
    have hsub := reduceLoop_psub b i
    rw [hempty] at hsub
    exact List.sublist_nil.1 hsub
  have hfix := reduceLoop_fix b
  have hsol : is_solved (reduceLoop b) = false := by
    by_contra hx
    have htrue : is_solved (reduceLoop b) = true := by
      revert hx
      cases is_solved (reduceLoop b) <;> simp
    have hlen := solved_fix_len1 hfix htrue i hi
    rw [hempty2] at hlen
    simp at hlen
  by_cases hsea : is_searchable (reduceLoop b) = true
  · exact search_gs_nil hsol hsea (fsb_empty hi hempty2)
  · apply search_not_searchable hsol
    revert hsea
    cases is_searchable (reduceLoop b) <;> simp

theorem C10_witness : is_searchable bC10 = true ∧
    getCell bC10 (find_smallest_box bC10) = [] ∧ search bC10 = none :=
  C10_empty_cell_paths bC10 ⟨0, by omega, by decide⟩ (by decide)

end Sudoku
